import Mathlib

/-!
Shallow embedding of the CSV parsing, cleaning and aggregation logic of
`src/app/page.tsx` (a client-side car-price dashboard), together with
theorems checking the natural-language specification against it.

JavaScript numbers are modelled by `JsNum` (a rational or NaN); strings by
Lean `String` (whose `data` field is a `List Char`); JS objects built by
key assignment by association lists with update-or-append semantics.
-/

set_option maxRecDepth 4096

namespace DataViz

/-! ### Generic string helpers (models of the JS string builtins used) -/

/-- Does the first list occur as a leading block of the second? -/
def leadEq : List Char → List Char → Bool
  | [], _ => true
  | _ :: _, [] => false
  | p :: ps, c :: cs => p == c && leadEq ps cs

/-- Does `pat` occur contiguously inside `s`?  Model of
`String.prototype.includes` restricted to the character level. -/
def subAt (pat : List Char) : List Char → Bool
  | [] => leadEq pat []
  | c :: cs => leadEq pat (c :: cs) || subAt pat cs

/-- Model of `s.includes(pat)` from JS. -/
def hasSub (s pat : String) : Bool := subAt pat.data s.data

/-- Model of `String.prototype.toLowerCase` (ASCII case mapping). -/
def jsToLower (s : String) : String := String.mk (s.data.map Char.toLower)

/-- Model of `String.prototype.trim`. -/
def jsTrim (s : String) : String :=
  String.mk (((s.data.dropWhile Char.isWhitespace).reverse.dropWhile Char.isWhitespace).reverse)

/-- One bounded step list for `String.prototype.split` with a non-empty
separator `c0 :: sepRest`: `fuel` bounds the recursion and is always
supplied as more than the length of the input. -/
def splitGo (c0 : Char) (sepRest : List Char) : Nat → List Char → List Char → List (List Char)
  | 0, l, acc => [acc.reverse ++ l]
  | _ + 1, [], acc => [acc.reverse]
  | fuel + 1, d :: ds, acc =>
    if d = c0 && leadEq sepRest ds then
      acc.reverse :: splitGo c0 sepRest fuel (ds.drop sepRest.length) []
    else
      splitGo c0 sepRest fuel ds (d :: acc)

/-- Model of `s.split(sep)` from JS (for non-empty `sep`; the empty
separator splits into single characters as in JS). -/
def splitStr (sep s : String) : List String :=
  match sep.data with
  | [] => s.data.map (fun c => String.mk [c])
  | c :: cs => (splitGo c cs (s.data.length + 1) s.data []).map String.mk

/-- Model of `text.split(/\r?\n/)`: split on `\n`, additionally dropping a
carriage return immediately before the newline.  The accumulator holds the
current line reversed, so the carriage return to drop is its head. -/
def dropCarriage : List Char → List Char
  | [] => []
  | c :: cs => if c = '\r' then cs else c :: cs

def splitLinesAux : List Char → List Char → List String
  | [], acc => [String.mk acc.reverse]
  | c :: cs, acc =>
    if c = '\n' then String.mk (dropCarriage acc).reverse :: splitLinesAux cs []
    else splitLinesAux cs (c :: acc)

def splitLines (s : String) : List String := splitLinesAux s.data []

/-! ### Kernel-computable rational arithmetic

The `Rat` field operations of the ambient library are `@[irreducible]`, so
the embedding computes with `Rat.divInt` through the helpers below; the
bridge lemmas identify them with the ordinary operations for proofs. -/

def qAdd (a b : ℚ) : ℚ := Rat.divInt (a.num * b.den + b.num * a.den) (a.den * b.den)

def qMul (a b : ℚ) : ℚ := Rat.divInt (a.num * b.num) (a.den * b.den)

def qDiv (a b : ℚ) : ℚ := Rat.divInt (a.num * b.den) (a.den * b.num)

/-- Ten to the `n` as a rational, through `Nat` power so that it computes. -/
def qTenPow (n : ℕ) : ℚ := ((10 ^ n : ℕ) : ℚ)

/-! ### JS numbers -/

/-- A JavaScript number as the dashboard uses them: a rational value or
`NaN`.  (The code never produces infinities in the modelled paths.) -/
inductive JsNum where
  | nan : JsNum
  | num : ℚ → JsNum
deriving DecidableEq

def jsIsNaN : JsNum → Bool
  | .nan => true
  | .num _ => false

/-- Truthiness of a possibly-undefined JS number (`undefined`, `NaN` and
`0` are falsy). -/
def jsTruthyNum : Option JsNum → Bool
  | some (.num q) => decide (q ≠ 0)
  | _ => false

/-- Model of `x || 0` on a possibly-undefined JS number. -/
def jsOrNumZero (x : Option JsNum) : JsNum :=
  match x with
  | some (.num q) => if q ≠ 0 then .num q else .num 0
  | _ => .num 0

/-- JS addition (NaN propagates). -/
def jsAdd : JsNum → JsNum → JsNum
  | .num a, .num b => .num (qAdd a b)
  | _, _ => .nan

/-- JS division by a positive integer count (the code only divides by
counts it has checked to be positive). -/
def jsDivNat (a : JsNum) (n : ℕ) : JsNum :=
  match a with
  | .num q => .num (qDiv q (n : ℚ))
  | .nan => .nan

/-- Model of `Math.round`: round half toward positive infinity. -/
def jsRound (q : ℚ) : ℤ := Rat.floor (qAdd q (Rat.divInt 1 2))

/-- Numeric value of a run of decimal digits, most significant first. -/
def digitsVal (cs : List Char) : ℕ :=
  cs.foldl (fun acc c => acc * 10 + (c.toNat - 48)) 0

/-- Model of the JS builtin `parseFloat`: skip leading whitespace, then
parse the longest prefix of the form `[+-]? digits [. digits] [eE [+-]? digits]`;
`NaN` when no digits are found.  (Special literals such as `Infinity` are
outside the model; the dashboard's data never contains them.) -/
def jsParseFloat (s : String) : JsNum :=
  let cs := s.data.dropWhile Char.isWhitespace
  let sgn : ℚ × List Char :=
    match cs with
    | '-' :: r => (-1, r)
    | '+' :: r => (1, r)
    | _ => (1, cs)
  let intDs := sgn.2.takeWhile Char.isDigit
  let r1 := sgn.2.dropWhile Char.isDigit
  let frac : List Char × List Char :=
    match r1 with
    | '.' :: r => (r.takeWhile Char.isDigit, r.dropWhile Char.isDigit)
    | _ => ([], r1)
  if intDs.isEmpty && frac.1.isEmpty then JsNum.nan
  else
    let mant : ℚ := qAdd (digitsVal intDs : ℚ) (qDiv (digitsVal frac.1 : ℚ) (qTenPow frac.1.length))
    let expPart : Bool × List Char :=
      match frac.2 with
      | 'e' :: r =>
        (match r with
         | '-' :: r2 => (true, r2.takeWhile Char.isDigit)
         | '+' :: r2 => (false, r2.takeWhile Char.isDigit)
         | _ => (false, r.takeWhile Char.isDigit))
      | 'E' :: r =>
        (match r with
         | '-' :: r2 => (true, r2.takeWhile Char.isDigit)
         | '+' :: r2 => (false, r2.takeWhile Char.isDigit)
         | _ => (false, r.takeWhile Char.isDigit))
      | _ => (false, [])
    let value : ℚ :=
      if expPart.2.isEmpty then mant
      else if expPart.1 then qDiv mant (qTenPow (digitsVal expPart.2))
      else qMul mant (qTenPow (digitsVal expPart.2))
    JsNum.num (qMul sgn.1 value)

/-- Model of the JS builtin `parseInt` with no radix argument, on decimal
input: skip whitespace, optional sign, longest run of decimal digits;
`NaN` when there are none.  (The `0x` hexadecimal prefix is outside the
model; the dashboard only parses model years.) -/
def jsParseInt (s : String) : JsNum :=
  let cs := s.data.dropWhile Char.isWhitespace
  let sgn : ℤ × List Char :=
    match cs with
    | '-' :: r => (-1, r)
    | '+' :: r => (1, r)
    | _ => (1, cs)
  let ds := sgn.2.takeWhile Char.isDigit
  if ds.isEmpty then JsNum.nan else JsNum.num ((sgn.1 * (digitsVal ds : ℤ) : ℤ) : ℚ)

/-! ### Rows and the CSV tokenizer (`parseCSV` in `src/app/page.tsx`) -/

/-- A parsed row: a JS object whose values are the strings read from the
file, as an association list in key-insertion order. -/
abbrev RawRow := List (String × String)

/-- Assignment `row[k] = v` on a JS object: overwrite an existing key in place,
otherwise append the new key. -/
def jsSet : RawRow → String → String → RawRow
  | [], k, v => [(k, v)]
  | (k', v') :: rest, k, v =>
    if k' = k then (k', v) :: rest else (k', v') :: jsSet rest k v

/-- Read `row[k]` on a JS object (`none` = `undefined`). -/
def lookupRow : RawRow → String → Option String
  | [], _ => none
  | (k', v) :: rest, k => if k' = k then some v else lookupRow rest k

/-- Indexing `nth l i` is `l[i]` as JS reads an array (`none` when out of range). -/
def nth : List α → ℕ → Option α
  | [], _ => none
  | a :: _, 0 => some a
  | _ :: as, n + 1 => nth as n

/-- Drop one leading double quote, if present. -/
def dropLeadQuote (cs : List Char) : List Char :=
  match cs with
  | [] => []
  | c :: r => if c = '"' then r else c :: r

/-- Model of `v.replace(/^"|"$/g, '')`: one leading and one trailing
double quote are removed. -/
def stripOuterQuotes (s : String) : String :=
  String.mk ((dropLeadQuote (dropLeadQuote s.data).reverse).reverse)

/-- A finished field value: strip outer quotes, then trim. -/
def finishVal (cs : List Char) : String := jsTrim (stripOuterQuotes (String.mk cs))

/-- The tokenizer state of the inner character loop of `parseCSV`. -/
structure TokSt where
  currentVal : List Char
  inQuotes : Bool
  colIndex : ℕ
  row : RawRow
deriving DecidableEq

/-- One character step of the `parseCSV` inner loop: a double quote
toggles `inQuotes` (and is dropped), a comma outside quotes finishes the
current field (stored only while `colIndex` is within the headers), any
other character is appended to the current value. -/
def tokStep (headers : List String) (st : TokSt) (c : Char) : TokSt :=
  if c = '"' then
    { st with inQuotes := !st.inQuotes }
  else if c = ',' ∧ st.inQuotes = false then
    { currentVal := [], inQuotes := st.inQuotes, colIndex := st.colIndex + 1,
      row := match nth headers st.colIndex with
             | some h => jsSet st.row h (finishVal st.currentVal)
             | none => st.row }
  else
    { st with currentVal := st.currentVal ++ [c] }

/-- Store the last value of the line (the code after the loop). -/
def finishLine (headers : List String) (st : TokSt) : RawRow :=
  match nth headers st.colIndex with
  | some h => jsSet st.row h (finishVal st.currentVal)
  | none => st.row

/-- Parse one data line of the CSV against the given headers. -/
def parseLine (headers : List String) (line : String) : RawRow :=
  finishLine headers (line.data.foldl (tokStep headers) ⟨[], false, 0, []⟩)

/-- Function `parseCSV`: split into lines, read the headers from the first line
(split on commas and trimmed), then parse every non-blank remaining line,
keeping rows with at least one key. -/
def parseCSV (text : String) : List RawRow :=
  match splitLines text with
  | [] => []
  | h0 :: rest =>
    let headers := (splitStr "," h0).map jsTrim
    rest.filterMap (fun line =>
      if jsTrim line = "" then none
      else
        let row := parseLine headers line
        if row.length > 0 then some row else none)

/-! ### Cleaning (`handleFileUpload` in `src/app/page.tsx`) -/

/-- Model of `s.replace(/"/g, '')`. -/
def removeQuotes (s : String) : String := String.mk (s.data.filter (fun c => c ≠ '"'))

/-- Model of `s.replace(',', '.')` (first occurrence only). -/
def commaDotAux : List Char → List Char
  | [] => []
  | c :: cs => if c = ',' then '.' :: cs else c :: commaDotAux cs

def commaToDot (s : String) : String := String.mk (commaDotAux s.data)

/-- A cleaned row: the raw fields (kept by the object spread) plus the
`_clean` fields added by the cleaning map. -/
structure CleanRow where
  raw : RawRow
  engine_size_clean : Option JsNum
  avg_price_clean : Option JsNum
  year_model_clean : JsNum
  fuel_clean : Option String
  brand_clean : String
deriving DecidableEq

/-- The cleaning map of `handleFileUpload`: coerce `engine_size` (quotes
removed, first comma turned into a dot, then `parseFloat`), coerce
`avg_price_brl` with plain `parseFloat`, coerce `year_model` with
`parseInt` when truthy, keep `fuel`, and take the part of `brand` before
the first `' - '` (or `'Outros'` when `brand` is missing or empty). -/
def cleanRow (row : RawRow) : CleanRow :=
  { raw := row
    engine_size_clean :=
      (lookupRow row "engine_size").map (fun s => jsParseFloat (commaToDot (removeQuotes s)))
    avg_price_clean := (lookupRow row "avg_price_brl").map jsParseFloat
    year_model_clean :=
      match lookupRow row "year_model" with
      | some s => if s ≠ "" then jsParseInt s else .num 0
      | none => .num 0
    fuel_clean := lookupRow row "fuel"
    brand_clean :=
      match lookupRow row "brand" with
      | some b => if b ≠ "" then (splitStr " - " b).headD "" else "Outros"
      | none => "Outros" }

/-- The final filter of the cleaning step:
`!isNaN(row.avg_price_clean || 0) && row.brand_clean`. -/
def keepRow (r : CleanRow) : Bool :=
  !(jsIsNaN (jsOrNumZero r.avg_price_clean)) && r.brand_clean ≠ ""

/-- Cleaning pipeline `rawData.map(cleanRow).filter(keepRow)`. -/
def cleanData (raws : List RawRow) : List CleanRow :=
  (raws.map cleanRow).filter keepRow

/-- The whole pure part of the upload handler: parse then clean. -/
def processText (text : String) : List CleanRow := cleanData (parseCSV text)

/-! ### The upload handler's `reader.onload` callback (`handleFileUpload`) -/

/-- The component state touched by the callback. -/
structure AppState where
  data : List CleanRow
  loading : Bool
  fileName : Option String
  error : Option String
deriving DecidableEq

/-- Model of the `reader.onload` callback.  `textResult` is
`e.target?.result` (`none` = missing, and the empty string is falsy like
in JS); `run` is the parse-and-clean computation, passed explicitly so
that the JS `try/catch` can be modelled by `Except` (the callback actually
runs `fun t => .ok (processText t)`, but an exception anywhere in parsing
or cleaning corresponds to an `.error` result, which the `catch` branch
handles). -/
def onLoadModel (st : AppState) (textResult : Option String)
    (run : String → Except String (List CleanRow)) : AppState :=
  match textResult with
  | none => { st with error := some "Erro ao ler o arquivo.", loading := false }
  | some text =>
    if text = "" then { st with error := some "Erro ao ler o arquivo.", loading := false }
    else
      match run text with
      | .ok cleaned => { st with data := cleaned, loading := false }
      | .error _ =>
        { st with
          error := some "Erro ao processar dados. Verifique se o arquivo é um CSV válido."
          loading := false }

/-! ### Aggregation (`chartsData` in `src/app/page.tsx`) -/

/-- Increment `m[k] = (m[k] || 0) + 1` on a JS counting object. -/
def bumpCount : List (String × ℕ) → String → List (String × ℕ)
  | [], k => [(k, 1)]
  | (k', n) :: rest, k =>
    if k' = k then (k', n + 1) :: rest else (k', n) :: bumpCount rest k

/-- Read `m[k] || 0` on a JS counting object. -/
def lookupN : List (String × ℕ) → String → ℕ
  | [], _ => 0
  | (k', n) :: rest, k => if k' = k then n else lookupN rest k

def sumN : List (String × ℕ) → ℕ
  | [] => 0
  | (_, n) :: rest => n + sumN rest

/-- Stable insertion into a sorted list: the model of the (stable)
`Array.prototype.sort` used by the dashboard. -/
def insertSorted (le : α → α → Bool) (a : α) : List α → List α
  | [] => [a]
  | b :: bs => if le a b then a :: b :: bs else b :: insertSorted le a bs

def sortByLe (le : α → α → Bool) : List α → List α
  | [] => []
  | a :: as => insertSorted le a (sortByLe le as)

structure BrandEntry where
  name : String
  value : ℕ
deriving DecidableEq

structure GearEntry where
  name : String
  value : ℕ
deriving DecidableEq

structure EvoEntry where
  name : String
  price : ℤ
deriving DecidableEq

structure GroupedEntry where
  name : String
  Automatico : ℤ
  Manual : ℤ
deriving DecidableEq

structure Kpis where
  totalCars : ℕ
  avgPrice : JsNum
  mostCommonBrand : String
deriving DecidableEq

structure ChartsData where
  brandData : List BrandEntry
  gearData : List GearEntry
  evolutionData : List EvoEntry
  groupedData : List GroupedEntry
  kpis : Kpis
deriving DecidableEq

/-- Step 1 of `chartsData`: count the rows per truthy `brand_clean`. -/
def brandCount (data : List CleanRow) : List (String × ℕ) :=
  data.foldl
    (fun acc d => if d.brand_clean ≠ "" then bumpCount acc d.brand_clean else acc) []

/-- Comparator `(a, b) => b.value - a.value`: `a` goes before `b` exactly
when `b.value ≤ a.value`. -/
def brandLe (a b : BrandEntry) : Bool := decide (b.value ≤ a.value)

/-- Series `brandData`: entries of the brand counter, sorted by descending count,
first 10. -/
def brandDataOf (data : List CleanRow) : List BrandEntry :=
  (sortByLe brandLe ((brandCount data).map (fun p => ⟨p.1, p.2⟩))).take 10

/-- Key `d.gear || 'Desconhecido'` of a row in the gear counter. -/
def gearKey (d : CleanRow) : String :=
  match lookupRow d.raw "gear" with
  | some g => if g = "" then "Desconhecido" else g
  | none => "Desconhecido"

/-- Step 2 of `chartsData`: count the rows per gear. -/
def gearCount (data : List CleanRow) : List (String × ℕ) :=
  data.foldl (fun acc d => bumpCount acc (gearKey d)) []

def gearDataOf (data : List CleanRow) : List GearEntry :=
  (gearCount data).map (fun p => ⟨p.1, p.2⟩)

/-- The quarter chain of step 3 of `chartsData`, on the already lowercased
month string: each quarter's name list is tested for occurrence as a
substring, in order, with `'Q4'` as the default. -/
def quarterOfLower (m : String) : String :=
  if (["january", "february", "march", "jan", "fev", "feb", "mar"].any
      (fun p => hasSub m p)) then "Q1"
  else if (["april", "may", "june", "abr", "apr", "mai", "jun"].any
      (fun p => hasSub m p)) then "Q2"
  else if (["july", "august", "september", "jul", "ago", "aug", "set", "sep"].any
      (fun p => hasSub m p)) then "Q3"
  else if (["october", "november", "december", "out", "oct", "nov", "dez", "dec"].any
      (fun p => hasSub m p)) then "Q4"
  else "Q4"

/-- The quarter assigned to a `month_of_reference` value: lowercase, then
run the chain. -/
def determineQuarter (month : String) : String := quarterOfLower (jsToLower month)

/-- The per-quarter accumulator entry of `priceEvolution`. -/
structure EvoItem where
  total : ℚ
  count : ℕ
  sortKey : String
  display : String
deriving DecidableEq

def lookupE : List (String × EvoItem) → String → Option EvoItem
  | [], _ => none
  | (k', it) :: rest, k => if k' = k then some it else lookupE rest k

/-- Create-if-absent then `total += price; count += 1`. -/
def evoAdd : List (String × EvoItem) → String → String → ℚ → List (String × EvoItem)
  | [], key, sk, p => [(key, ⟨qAdd 0 p, 1, sk, key⟩)]
  | (k, it) :: rest, key, sk, p =>
    if k = key then
      (k, { it with total := qAdd it.total p, count := it.count + 1 }) :: rest
    else
      (k, it) :: evoAdd rest key sk p

/-- The guard and key computation of the `priceEvolution` loop body:
`none` when the row is skipped (missing or falsy month, year or price),
otherwise the group key `Q/Year`, the sort key `Year-Q` and the price. -/
def evoEntry (d : CleanRow) : Option (String × String × ℚ) :=
  match lookupRow d.raw "month_of_reference", lookupRow d.raw "year_of_reference",
      d.avg_price_clean with
  | some mo, some yr, some (.num p) =>
    if mo ≠ "" ∧ yr ≠ "" ∧ p ≠ 0 then
      let q := determineQuarter mo
      some (q ++ "/" ++ yr, yr ++ "-" ++ q, p)
    else none
  | _, _, _ => none

def evoStep (acc : List (String × EvoItem)) (d : CleanRow) : List (String × EvoItem) :=
  match evoEntry d with
  | some (k, sk, p) => evoAdd acc k sk p
  | none => acc

def priceEvolution (data : List CleanRow) : List (String × EvoItem) :=
  data.foldl evoStep []

/-- Comparator `a.sortKey.localeCompare(b.sortKey)`, modelled by the
lexicographic string order. -/
def evoLe (a b : EvoItem) : Bool := decide (a.sortKey ≤ b.sortKey)

/-- Series `evolutionData`: the accumulator's values sorted chronologically, each
mapped to its display name and the rounded mean price. -/
def evolutionDataOf (data : List CleanRow) : List EvoEntry :=
  (sortByLe evoLe ((priceEvolution data).map Prod.snd)).map
    (fun it => ⟨it.display, jsRound (qDiv it.total (it.count : ℚ))⟩)

/-- The per-brand accumulator entry of the grouped (brand × gear) means. -/
structure GroupedItem where
  name : String
  automatic : ℚ
  manual : ℚ
  countAuto : ℕ
  countManual : ℕ
deriving DecidableEq

def lookupG : List (String × GroupedItem) → String → Option GroupedItem
  | [], _ => none
  | (k', it) :: rest, k => if k' = k then some it else lookupG rest k

def updateG (m : List (String × GroupedItem)) (k : String)
    (f : GroupedItem → GroupedItem) : List (String × GroupedItem) :=
  match m with
  | [] => []
  | (k', it) :: rest => if k' = k then (k', f it) :: rest else (k', it) :: updateG rest k f

/-- The price of a row whose `avg_price_clean` passed a truthiness guard. -/
def priceQ (d : CleanRow) : ℚ :=
  match d.avg_price_clean with
  | some (.num q) => q
  | _ => 0

/-- The body of the grouped-data loop: create the brand's entry if absent,
then add the price under `automatic` or `manual` when the gear matches and
the price is truthy. -/
def groupedStep (acc : List (String × GroupedItem)) (d : CleanRow) :
    List (String × GroupedItem) :=
  let brand := d.brand_clean
  let acc1 :=
    match lookupG acc brand with
    | none => acc ++ [(brand, ⟨brand, 0, 0, 0, 0⟩)]
    | some _ => acc
  if lookupRow d.raw "gear" = some "automatic" ∧ jsTruthyNum d.avg_price_clean = true then
    updateG acc1 brand (fun it =>
      { it with automatic := qAdd it.automatic (priceQ d), countAuto := it.countAuto + 1 })
  else if lookupRow d.raw "gear" = some "manual" ∧ jsTruthyNum d.avg_price_clean = true then
    updateG acc1 brand (fun it =>
      { it with manual := qAdd it.manual (priceQ d), countManual := it.countManual + 1 })
  else acc1

/-- Step 4 of `chartsData`: rows of the top-6 brands, grouped by brand,
with the mean price per gear type (0 when a gear has no rows). -/
def groupedDataOf (data : List CleanRow) : List GroupedEntry :=
  let top := ((brandDataOf data).take 6).map (fun b => b.name)
  let obj := (data.filter (fun d => top.contains d.brand_clean)).foldl groupedStep []
  obj.map (fun p =>
    ⟨p.2.name,
     if p.2.countAuto ≠ 0 then jsRound (qDiv p.2.automatic (p.2.countAuto : ℚ)) else 0,
     if p.2.countManual ≠ 0 then jsRound (qDiv p.2.manual (p.2.countManual : ℚ)) else 0⟩)

/-- KPI `avgPrice`: sum of `avg_price_clean || 0` over all rows, divided
by the number of rows (0 when there are none). -/
def avgPriceOf (data : List CleanRow) : JsNum :=
  if data.length > 0 then
    jsDivNat (data.foldl (fun acc d => jsAdd acc (jsOrNumZero d.avg_price_clean)) (.num 0))
      data.length
  else .num 0

/-- KPI `mostCommonBrand`: the first entry of `brandData`, `'-'` when
there is none. -/
def mostCommonBrandOf (data : List CleanRow) : String :=
  match brandDataOf data with
  | [] => "-"
  | e :: _ => e.name

/-- Aggregator `chartsData`: `null` on an empty dataset, otherwise the four series
and the three KPIs. -/
def chartsData (data : List CleanRow) : Option ChartsData :=
  if data.length = 0 then none
  else
    some
      { brandData := brandDataOf data
        gearData := gearDataOf data
        evolutionData := evolutionDataOf data
        groupedData := groupedDataOf data
        kpis :=
          { totalCars := data.length
            avgPrice := avgPriceOf data
            mostCommonBrand := mostCommonBrandOf data } }

/-! ### Specification-side characterisations

These definitions phrase what the claims say the aggregation computes
(group sums, counts per key); the theorems relate the code's incremental
folds above to them. -/

/-- The number of rows counted under gear key `k`. -/
def countGearRows : List CleanRow → String → ℕ
  | [], _ => 0
  | d :: ds, k => (if gearKey d = k then 1 else 0) + countGearRows ds k

/-- The number of rows counted under brand `k` (the code counts a row only
when its `brand_clean` is truthy). -/
def countBrandRows : List CleanRow → String → ℕ
  | [], _ => 0
  | d :: ds, k =>
    (if d.brand_clean ≠ "" ∧ d.brand_clean = k then 1 else 0) + countBrandRows ds k

/-- Sum of the prices of the rows assigned to evolution group `k`. -/
def groupTotal : List CleanRow → String → ℚ
  | [], _ => 0
  | d :: ds, k =>
    (match evoEntry d with
     | some (k', _, p) => if k' = k then p else 0
     | none => 0) + groupTotal ds k

/-- Number of rows assigned to evolution group `k`. -/
def groupCount : List CleanRow → String → ℕ
  | [], _ => 0
  | d :: ds, k =>
    (match evoEntry d with
     | some (k', _, _) => if k' = k then 1 else 0
     | none => 0) + groupCount ds k

/-- The total stored for key `k` in a `priceEvolution` accumulator (0 when
the key is absent). -/
def totalE (m : List (String × EvoItem)) (k : String) : ℚ :=
  match lookupE m k with
  | some it => it.total
  | none => 0

/-- The count stored for key `k` in a `priceEvolution` accumulator. -/
def countE (m : List (String × EvoItem)) (k : String) : ℕ :=
  match lookupE m k with
  | some it => it.count
  | none => 0

/-- A line whose comma-separated fields are exactly `fields`. -/
def joinCommas : List String → String
  | [] => ""
  | [f] => f
  | f :: fs => f ++ "," ++ joinCommas fs

/-- What the cleaning is supposed to store as `brand_clean`, as a function
of the raw `brand` field: the text before the first `' - '` separator, or
`'Outros'` when the field is missing or empty. -/
def brandFrom (b? : Option String) : String :=
  match b? with
  | some b => if b ≠ "" then (splitStr " - " b).headD "" else "Outros"
  | none => "Outros"

/-! ### Concrete fixtures used by the witnesses -/

def wRow : CleanRow :=
  { raw := [("gear", "manual"), ("month_of_reference", "March"), ("year_of_reference", "2021")]
    engine_size_clean := none
    avg_price_clean := some (.num 10)
    year_model_clean := .num 0
    fuel_clean := none
    brand_clean := "GM" }

def wData : List CleanRow := [wRow]

def wCD : ChartsData :=
  { brandData := [⟨"GM", 1⟩]
    gearData := [⟨"manual", 1⟩]
    evolutionData := [⟨"Q1/2021", 10⟩]
    groupedData := [⟨"GM", 0, 10⟩]
    kpis := { totalCars := 1, avgPrice := .num 10, mostCommonBrand := "GM" } }

/-! ## Bridge lemmas for the computable rational helpers -/

theorem qAdd_eq (a b : ℚ) : qAdd a b = a + b := by
  unfold qAdd
  rw [Rat.divInt_eq_div]
  push_cast
  have ha : ((a.den : ℚ)) ≠ 0 := Nat.cast_ne_zero.mpr a.den_nz
  have hb : ((b.den : ℚ)) ≠ 0 := Nat.cast_ne_zero.mpr b.den_nz
  conv_rhs => rw [← Rat.num_div_den a, ← Rat.num_div_den b]
  field_simp

theorem qMul_eq (a b : ℚ) : qMul a b = a * b := by
  unfold qMul
  rw [Rat.divInt_eq_div]
  push_cast
  conv_rhs => rw [← Rat.num_div_den a, ← Rat.num_div_den b]
  rw [div_mul_div_comm]

theorem qDiv_eq (a b : ℚ) : qDiv a b = a / b := by
  unfold qDiv
  by_cases hb : b = 0
  · subst hb; simp [Rat.divInt_eq_div]
  · rw [Rat.divInt_eq_div]
    push_cast
    have ha : ((a.den : ℚ)) ≠ 0 := Nat.cast_ne_zero.mpr a.den_nz
    have hbn : ((b.num : ℚ)) ≠ 0 := by
      simpa using Rat.num_ne_zero.mpr hb
    conv_rhs => rw [← Rat.num_div_den a, ← Rat.num_div_den b]
    have hbd : ((b.den : ℚ)) ≠ 0 := Nat.cast_ne_zero.mpr b.den_nz
    field_simp

theorem qTenPow_eq (n : ℕ) : qTenPow n = (10 : ℚ) ^ n := by
  unfold qTenPow
  push_cast
  rfl

/-! ## C3: binning months into calendar quarters -/

theorem quarterOfLower_q1 :
    ∀ m ∈ (["january", "janeiro", "february", "fevereiro", "march", "março",
        "jan", "feb", "fev", "mar"] : List String), quarterOfLower m = "Q1" := by
  decide

theorem quarterOfLower_q2 :
    ∀ m ∈ (["april", "abril", "may", "maio", "june", "junho",
        "apr", "abr", "mai", "jun"] : List String), quarterOfLower m = "Q2" := by
  decide

theorem quarterOfLower_q3 :
    ∀ m ∈ (["july", "julho", "august", "agosto", "september", "setembro",
        "jul", "aug", "ago", "sep", "set"] : List String), quarterOfLower m = "Q3" := by
  decide

theorem quarterOfLower_q4 :
    ∀ m ∈ (["october", "outubro", "november", "novembro", "december", "dezembro",
        "oct", "out", "nov", "dec", "dez"] : List String), quarterOfLower m = "Q4" := by
  decide

/-- C3: the aggregator's quarter computation sends any month string whose
lowercasing is an English or Portuguese month name, full or abbreviated,
to the calendar quarter containing that month: January–March to Q1,
April–June to Q2, July–September to Q3, October–December to Q4. -/
theorem determineQuarter_months (s : String) :
    (jsToLower s ∈ (["january", "janeiro", "february", "fevereiro", "march", "março",
        "jan", "feb", "fev", "mar"] : List String) → determineQuarter s = "Q1") ∧
    (jsToLower s ∈ (["april", "abril", "may", "maio", "june", "junho",
        "apr", "abr", "mai", "jun"] : List String) → determineQuarter s = "Q2") ∧
    (jsToLower s ∈ (["july", "julho", "august", "agosto", "september", "setembro",
        "jul", "aug", "ago", "sep", "set"] : List String) → determineQuarter s = "Q3") ∧
    (jsToLower s ∈ (["october", "outubro", "november", "novembro", "december", "dezembro",
        "oct", "out", "nov", "dec", "dez"] : List String) → determineQuarter s = "Q4") :=
  ⟨fun h => quarterOfLower_q1 _ h, fun h => quarterOfLower_q2 _ h,
   fun h => quarterOfLower_q3 _ h, fun h => quarterOfLower_q4 _ h⟩

/-- Witness for C3 at concrete inputs in both languages, abbreviated,
full, and mixed case. -/
theorem determineQuarter_months_witness :
    determineQuarter "March" = "Q1" ∧ determineQuarter "mai" = "Q2" ∧
    determineQuarter "September" = "Q3" ∧ determineQuarter "DEZEMBRO" = "Q4" :=
  ⟨(determineQuarter_months "March").1 (by decide),
   (determineQuarter_months "mai").2.1 (by decide),
   (determineQuarter_months "September").2.2.1 (by decide),
   (determineQuarter_months "DEZEMBRO").2.2.2 (by decide)⟩

/-! ## C2: locale-aware numeric coercion of the cleaning step -/

theorem cleanRow_engine (row : RawRow) (s : String)
    (h : lookupRow row "engine_size" = some s) :
    (cleanRow row).engine_size_clean =
      some (jsParseFloat (commaToDot (removeQuotes s))) := by
  simp [cleanRow, h]

theorem cleanRow_price (row : RawRow) (s : String)
    (h : lookupRow row "avg_price_brl" = some s) :
    (cleanRow row).avg_price_clean = some (jsParseFloat s) := by
  simp [cleanRow, h]

/-- C2: the field cleaner coerces the string numeric fields: the
`engine_size` string has its quotes removed and its first comma replaced
by a dot before `parseFloat` (so `"1,6"` becomes the number 1.6), and the
`avg_price_brl` string is passed to `parseFloat` (so `"45000.5"` becomes
the number 45000.5). -/
theorem cleanRow_numeric_coercion :
    (∀ (row : RawRow) (s : String), lookupRow row "engine_size" = some s →
      (cleanRow row).engine_size_clean =
        some (jsParseFloat (commaToDot (removeQuotes s)))) ∧
    (∀ (row : RawRow) (s : String), lookupRow row "avg_price_brl" = some s →
      (cleanRow row).avg_price_clean = some (jsParseFloat s)) ∧
    (∀ row : RawRow, lookupRow row "engine_size" = some "1,6" →
      (cleanRow row).engine_size_clean = some (.num ((8 : ℚ) / 5))) ∧
    (∀ row : RawRow, lookupRow row "avg_price_brl" = some "45000.5" →
      (cleanRow row).avg_price_clean = some (.num ((90001 : ℚ) / 2))) := by
  refine ⟨cleanRow_engine, cleanRow_price, fun row h => ?_, fun row h => ?_⟩
  · rw [cleanRow_engine row _ h]
    have hv : jsParseFloat (commaToDot (removeQuotes "1,6")) = .num (Rat.divInt 8 5) := by
      decide
    rw [hv, Rat.divInt_eq_div]
    norm_num
  · rw [cleanRow_price row _ h]
    have hv : jsParseFloat "45000.5" = .num (Rat.divInt 90001 2) := by decide
    rw [hv, Rat.divInt_eq_div]
    norm_num

/-- Witness for C2 at a concrete row carrying both string fields. -/
theorem cleanRow_numeric_coercion_witness :
    (cleanRow [("engine_size", "1,6"), ("avg_price_brl", "45000.5")]).engine_size_clean =
      some (.num ((8 : ℚ) / 5)) ∧
    (cleanRow [("engine_size", "1,6"), ("avg_price_brl", "45000.5")]).avg_price_clean =
      some (.num ((90001 : ℚ) / 2)) :=
  ⟨cleanRow_numeric_coercion.2.2.1 _ (by decide),
   cleanRow_numeric_coercion.2.2.2 _ (by decide)⟩

/-! ## C6: the try/catch around the file-read callback -/

/-- C6: when the parse-and-clean computation of the `reader.onload`
callback throws, the catch branch sets the error message, clears the
loading flag, and leaves the previously stored dataset untouched. -/
theorem onLoad_error_preserves_data (st : AppState) (text : String)
    (run : String → Except String (List CleanRow)) (msg : String)
    (htext : text ≠ "") (hrun : run text = .error msg) :
    (onLoadModel st (some text) run).data = st.data ∧
    (onLoadModel st (some text) run).error =
      some "Erro ao processar dados. Verifique se o arquivo é um CSV válido." ∧
    (onLoadModel st (some text) run).loading = false := by
  simp [onLoadModel, htext, hrun]

/-- Witness for C6: a state with stored data, a failing computation. -/
theorem onLoad_error_preserves_data_witness :
    (onLoadModel ⟨wData, true, some "f.csv", none⟩ (some "x")
        (fun _ => .error "boom")).data = wData ∧
    (onLoadModel ⟨wData, true, some "f.csv", none⟩ (some "x")
        (fun _ => .error "boom")).error =
      some "Erro ao processar dados. Verifique se o arquivo é um CSV válido." ∧
    (onLoadModel ⟨wData, true, some "f.csv", none⟩ (some "x")
        (fun _ => .error "boom")).loading = false :=
  onLoad_error_preserves_data ⟨wData, true, some "f.csv", none⟩ "x"
    (fun _ => .error "boom") "boom" (by decide) rfl

/-! ## C5: shape of the aggregator output -/

/-- C5: on an empty cleaned dataset the aggregator produces `null`; on a
non-empty one it produces exactly the four derived series and the three
KPIs, with `totalCars` the number of cleaned rows. -/
theorem chartsData_shape (data : List CleanRow) :
    (data = [] → chartsData data = none) ∧
    (data ≠ [] → ∃ cd, chartsData data = some cd ∧
      cd.brandData = brandDataOf data ∧ cd.gearData = gearDataOf data ∧
      cd.evolutionData = evolutionDataOf data ∧ cd.groupedData = groupedDataOf data ∧
      cd.kpis.totalCars = data.length ∧ cd.kpis.avgPrice = avgPriceOf data ∧
      cd.kpis.mostCommonBrand = mostCommonBrandOf data) := by
  constructor
  · intro h; subst h; rfl
  · intro h
    have hl : ¬data.length = 0 := fun hh => h (List.length_eq_zero.mp hh)
    have hcd : chartsData data =
        some ⟨brandDataOf data, gearDataOf data, evolutionDataOf data, groupedDataOf data,
          ⟨data.length, avgPriceOf data, mostCommonBrandOf data⟩⟩ := by
      simp [chartsData, hl]
    exact ⟨_, hcd, rfl, rfl, rfl, rfl, rfl, rfl, rfl⟩

/-- Witness for C5: the empty dataset and a one-row dataset. -/
theorem chartsData_shape_witness :
    chartsData [] = none ∧
    ∃ cd, chartsData wData = some cd ∧ cd.kpis.totalCars = wData.length := by
  refine ⟨(chartsData_shape []).1 rfl, ?_⟩
  obtain ⟨cd, h1, -, -, -, -, h2, -, -⟩ := (chartsData_shape wData).2 (by decide)
  exact ⟨cd, h1, h2⟩

/-! ## C8: the brand invariant of cleaned rows -/

/-- C8: every row surviving the cleaning filter has a non-empty
`brand_clean`, equal to the raw brand text before the first `' - '`
separator (or `'Outros'` when the raw field is missing or empty), and a
row whose computed `brand_clean` is empty never survives the filter. -/
theorem cleanData_brand_invariant :
    (∀ (raws : List RawRow) (r : CleanRow), r ∈ cleanData raws →
      r.brand_clean ≠ "" ∧ r.brand_clean = brandFrom (lookupRow r.raw "brand")) ∧
    (∀ (raws : List RawRow) (row : RawRow), row ∈ raws →
      (cleanRow row).brand_clean = "" → cleanRow row ∉ cleanData raws) := by
  have hmem : ∀ (raws : List RawRow) (r : CleanRow), r ∈ cleanData raws →
      r.brand_clean ≠ "" ∧ r.brand_clean = brandFrom (lookupRow r.raw "brand") := by
    intro raws r hr
    unfold cleanData at hr
    rw [List.mem_filter] at hr
    obtain ⟨hr1, hr2⟩ := hr
    constructor
    · unfold keepRow at hr2
      rw [Bool.and_eq_true] at hr2
      simpa using hr2.2
    · obtain ⟨row, -, hrow⟩ := List.mem_map.mp hr1
      subst hrow
      rfl
  refine ⟨hmem, fun raws row hrow hempty hmem2 => ?_⟩
  exact (hmem raws (cleanRow row) hmem2).1 hempty

/-- Witness for C8: a concrete cleaned dataset. -/
theorem cleanData_brand_invariant_witness :
    (cleanRow [("brand", "GM - Chevrolet"), ("avg_price_brl", "10")]).brand_clean ≠ "" ∧
    (cleanRow [("brand", "GM - Chevrolet"), ("avg_price_brl", "10")]).brand_clean =
      brandFrom (some "GM - Chevrolet") :=
  cleanData_brand_invariant.1 [[("brand", "GM - Chevrolet"), ("avg_price_brl", "10")]]
    (cleanRow [("brand", "GM - Chevrolet"), ("avg_price_brl", "10")]) (by decide)

/-! ## Counting-object lemmas (shared by C9 and C10) -/

theorem lookupN_bump (m : List (String × ℕ)) (k0 k : String) :
    lookupN (bumpCount m k0) k = lookupN m k + (if k0 = k then 1 else 0) := by
  induction m with
  | nil =>
    by_cases h : k0 = k <;> simp [bumpCount, lookupN, h]
  | cons p rest ih =>
    obtain ⟨k', n⟩ := p
    by_cases h1 : k' = k0
    · subst h1
      by_cases h2 : k' = k
      · subst h2; simp [bumpCount, lookupN]
      · simp [bumpCount, lookupN, h2]
    · by_cases h2 : k' = k
      · subst h2
        have h3 : ¬k0 = k' := fun hh => h1 hh.symm
        simp [bumpCount, lookupN, h1, h3]
      · simp [bumpCount, lookupN, h1, h2, ih]

theorem sumN_bump (m : List (String × ℕ)) (k : String) :
    sumN (bumpCount m k) = sumN m + 1 := by
  induction m with
  | nil => rfl
  | cons p rest ih =>
    obtain ⟨k', n⟩ := p
    simp only [bumpCount]
    split_ifs with h
    · simp [sumN]; omega
    · simp [sumN, ih]; omega

theorem mem_keys_bump (m : List (String × ℕ)) (k0 k : String) :
    k ∈ (bumpCount m k0).map Prod.fst ↔ k ∈ m.map Prod.fst ∨ k = k0 := by
  induction m with
  | nil => simp [bumpCount]
  | cons p rest ih =>
    obtain ⟨k', n⟩ := p
    simp only [bumpCount]
    split_ifs with h
    · subst h
      simp only [List.map_cons, List.mem_cons]
      constructor
      · intro hh; rcases hh with hh | hh
        · exact Or.inl (Or.inl hh)
        · exact Or.inl (Or.inr hh)
      · intro hh
        rcases hh with (hh | hh) | hh
        · exact Or.inl hh
        · exact Or.inr hh
        · exact Or.inl hh
    · simp only [List.map_cons, List.mem_cons, ih]
      tauto

theorem nodup_keys_bump (m : List (String × ℕ)) (k0 : String)
    (h : (m.map Prod.fst).Nodup) : ((bumpCount m k0).map Prod.fst).Nodup := by
  induction m with
  | nil => simp [bumpCount]
  | cons p rest ih =>
    obtain ⟨k', n⟩ := p
    simp only [List.map_cons, List.nodup_cons] at h
    simp only [bumpCount]
    split_ifs with hk
    · simp only [List.map_cons, List.nodup_cons]
      exact h
    · simp only [List.map_cons, List.nodup_cons]
      refine ⟨?_, ih h.2⟩
      rw [mem_keys_bump]
      rintro (hh | hh)
      · exact h.1 hh
      · exact hk hh

theorem mem_lookupN (m : List (String × ℕ)) (k : String) (n : ℕ)
    (hnd : (m.map Prod.fst).Nodup) (hm : (k, n) ∈ m) : lookupN m k = n := by
  induction m with
  | nil => simp at hm
  | cons p rest ih =>
    obtain ⟨k', n'⟩ := p
    simp only [List.map_cons, List.nodup_cons] at hnd
    rcases List.mem_cons.mp hm with hh | hh
    · injection hh with h1 h2
      subst h1; subst h2
      simp [lookupN]
    · have hk : k' ≠ k := by
        intro hc
        subst hc
        exact hnd.1 (List.mem_map.mpr ⟨(k', n), hh, rfl⟩)
      simp [lookupN, hk, ih hnd.2 hh]

theorem lookupN_mem (m : List (String × ℕ)) (k : String)
    (h : lookupN m k ≠ 0) : (k, lookupN m k) ∈ m := by
  induction m with
  | nil => simp [lookupN] at h
  | cons p rest ih =>
    obtain ⟨k', n'⟩ := p
    by_cases hk : k' = k
    · subst hk
      simp [lookupN]
    · simp only [lookupN, if_neg hk] at h ⊢
      exact List.mem_cons.mpr (Or.inr (ih h))

/-! ## C10: the gear distribution partitions the rows -/

theorem gearCount_fold (l : List CleanRow) :
    ∀ (acc : List (String × ℕ)) (k : String),
      lookupN (l.foldl (fun acc d => bumpCount acc (gearKey d)) acc) k =
        lookupN acc k + countGearRows l k := by
  induction l with
  | nil => intro acc k; simp [countGearRows]
  | cons d ds ih =>
    intro acc k
    simp only [List.foldl_cons, countGearRows]
    rw [ih, lookupN_bump]
    omega

theorem gearCount_sum (l : List CleanRow) :
    ∀ acc : List (String × ℕ),
      sumN (l.foldl (fun acc d => bumpCount acc (gearKey d)) acc) = sumN acc + l.length := by
  induction l with
  | nil => intro acc; simp
  | cons d ds ih =>
    intro acc
    simp only [List.foldl_cons, List.length_cons]
    rw [ih, sumN_bump]
    omega

theorem gearCount_nodup (l : List CleanRow) :
    ∀ acc : List (String × ℕ), (acc.map Prod.fst).Nodup →
      (((l.foldl (fun acc d => bumpCount acc (gearKey d)) acc)).map Prod.fst).Nodup := by
  induction l with
  | nil => intro acc h; simpa using h
  | cons d ds ih =>
    intro acc h
    simp only [List.foldl_cons]
    exact ih _ (nodup_keys_bump _ _ h)

theorem sumN_map_value (m : List (String × ℕ)) :
    (((m.map (fun p => (⟨p.1, p.2⟩ : GearEntry))).map (fun e => e.value)).sum) = sumN m := by
  induction m with
  | nil => rfl
  | cons p rest ih => simpa [sumN, Function.comp] using congrArg (p.2 + ·) ih

/-- C10: `gearData` partitions the cleaned rows: every row is counted
under its gear value (or `'Desconhecido'` when the gear field is missing
or empty), each entry's value is the number of rows with that key, and the
entry values sum to the `totalCars` KPI, which is the number of cleaned
rows. -/
theorem gearData_partitions (data : List CleanRow) (cd : ChartsData)
    (hcd : chartsData data = some cd) :
    ((cd.gearData.map (fun e => e.value)).sum = cd.kpis.totalCars) ∧
    cd.kpis.totalCars = data.length ∧
    (∀ e ∈ cd.gearData, e.value = countGearRows data e.name) := by
  unfold chartsData at hcd
  split at hcd
  · exact absurd hcd (by simp)
  · injection hcd with hcd
    subst hcd
    refine ⟨?_, rfl, ?_⟩
    · show (((gearDataOf data).map (fun e => e.value)).sum) = data.length
      unfold gearDataOf gearCount
      rw [sumN_map_value]
      have := gearCount_sum data []
      simpa [sumN] using this
    · intro e he
      obtain ⟨p, hp, hpe⟩ := List.mem_map.mp he
      subst hpe
      show p.2 = countGearRows data p.1
      have hnd : (((gearCount data)).map Prod.fst).Nodup := by
        unfold gearCount
        exact gearCount_nodup data [] (by simp)
      have hlk : lookupN (gearCount data) p.1 = p.2 :=
        mem_lookupN _ _ _ hnd (by exact hp)
      have hfold := gearCount_fold data [] p.1
      unfold gearCount at hlk
      rw [hfold] at hlk
      simpa [lookupN] using hlk.symm

/-- Witness for C10 on the one-row fixture dataset. -/
theorem gearData_partitions_witness :
    ((wCD.gearData.map (fun e => e.value)).sum = wCD.kpis.totalCars) ∧
    wCD.kpis.totalCars = wData.length ∧
    (∀ e ∈ wCD.gearData, e.value = countGearRows wData e.name) :=
  gearData_partitions wData wCD (by decide)

/-! ## Sorting lemmas (for C9 and C4) -/

theorem mem_insertSorted (le : α → α → Bool) (a x : α) (l : List α) :
    x ∈ insertSorted le a l ↔ x = a ∨ x ∈ l := by
  induction l with
  | nil => simp [insertSorted]
  | cons b bs ih =>
    simp only [insertSorted]
    split_ifs with h
    · simp only [List.mem_cons]
    · simp only [List.mem_cons, ih]
      tauto

theorem mem_sortByLe (le : α → α → Bool) (x : α) (l : List α) :
    x ∈ sortByLe le l ↔ x ∈ l := by
  induction l with
  | nil => simp [sortByLe]
  | cons a as ih => simp [sortByLe, mem_insertSorted, ih]

theorem pairwise_insertSorted (le : α → α → Bool)
    (htot : ∀ a b, le a b = true ∨ le b a = true)
    (htrans : ∀ a b c, le a b = true → le b c = true → le a c = true)
    (a : α) (l : List α) (h : l.Pairwise (fun x y => le x y = true)) :
    (insertSorted le a l).Pairwise (fun x y => le x y = true) := by
  induction l with
  | nil => simp [insertSorted]
  | cons b bs ih =>
    rcases List.pairwise_cons.mp h with ⟨hb, hbs⟩
    simp only [insertSorted]
    split_ifs with hab
    · refine List.pairwise_cons.mpr ⟨?_, h⟩
      intro y hy
      rcases List.mem_cons.mp hy with rfl | hy
      · exact hab
      · exact htrans a b y hab (hb y hy)
    · have hba : le b a = true := by
        rcases htot a b with hh | hh
        · exact absurd hh (by simpa using hab)
        · exact hh
      refine List.pairwise_cons.mpr ⟨?_, ih hbs⟩
      intro y hy
      rcases (mem_insertSorted le a y bs).mp hy with rfl | hy
      · exact hba
      · exact hb y hy

theorem pairwise_sortByLe (le : α → α → Bool)
    (htot : ∀ a b, le a b = true ∨ le b a = true)
    (htrans : ∀ a b c, le a b = true → le b c = true → le a c = true)
    (l : List α) : (sortByLe le l).Pairwise (fun x y => le x y = true) := by
  induction l with
  | nil => simp [sortByLe]
  | cons a as ih => exact pairwise_insertSorted le htot htrans a _ ih

theorem insertSorted_ne_nil (le : α → α → Bool) (a : α) (l : List α) :
    insertSorted le a l ≠ [] := by
  cases l with
  | nil => simp [insertSorted]
  | cons b bs =>
    simp only [insertSorted]
    split_ifs <;> simp

theorem sortByLe_ne_nil (le : α → α → Bool) (l : List α) (h : l ≠ []) :
    sortByLe le l ≠ [] := by
  cases l with
  | nil => exact absurd rfl h
  | cons a as => exact insertSorted_ne_nil le a _

/-! ## C9: brandData is the sorted top 10 and mostCommonBrand is maximal -/

theorem brandCount_fold (l : List CleanRow) :
    ∀ (acc : List (String × ℕ)) (k : String),
      lookupN
        (l.foldl
          (fun acc d => if d.brand_clean ≠ "" then bumpCount acc d.brand_clean else acc) acc) k
        = lookupN acc k + countBrandRows l k := by
  induction l with
  | nil => intro acc k; simp [countBrandRows]
  | cons d ds ih =>
    intro acc k
    simp only [List.foldl_cons, countBrandRows]
    have hstep :
        lookupN (if d.brand_clean ≠ "" then bumpCount acc d.brand_clean else acc) k
          = lookupN acc k + (if d.brand_clean ≠ "" ∧ d.brand_clean = k then 1 else 0) := by
      by_cases hb : d.brand_clean ≠ ""
      · rw [if_pos hb, lookupN_bump]
        by_cases hk : d.brand_clean = k
        · rw [if_pos hk, if_pos ⟨hb, hk⟩]
        · rw [if_neg hk, if_neg (fun hh => hk hh.2)]
      · rw [if_neg hb, if_neg (fun hh => hb hh.1)]
        omega
    rw [ih, hstep]
    omega

theorem brandCount_nodup (l : List CleanRow) :
    ∀ acc : List (String × ℕ), (acc.map Prod.fst).Nodup →
      ((l.foldl
          (fun acc d => if d.brand_clean ≠ "" then bumpCount acc d.brand_clean else acc) acc).map
        Prod.fst).Nodup := by
  induction l with
  | nil => intro acc h; simpa using h
  | cons d ds ih =>
    intro acc h
    simp only [List.foldl_cons]
    refine ih _ ?_
    by_cases hb : d.brand_clean ≠ ""
    · rw [if_pos hb]; exact nodup_keys_bump _ _ h
    · rw [if_neg hb]; exact h

theorem bumpCount_ne_nil (m : List (String × ℕ)) (k : String) : bumpCount m k ≠ [] := by
  cases m with
  | nil => simp [bumpCount]
  | cons p rest =>
    obtain ⟨k', n⟩ := p
    simp only [bumpCount]
    split_ifs <;> simp

theorem brand_fold_ne_nil (l : List CleanRow) :
    ∀ acc : List (String × ℕ), acc ≠ [] →
      l.foldl
        (fun acc d => if d.brand_clean ≠ "" then bumpCount acc d.brand_clean else acc) acc ≠ [] := by
  induction l with
  | nil => intro acc h; simpa using h
  | cons d ds ih =>
    intro acc h
    simp only [List.foldl_cons]
    refine ih _ ?_
    by_cases hb : d.brand_clean ≠ ""
    · rw [if_pos hb]; exact bumpCount_ne_nil _ _
    · rw [if_neg hb]; exact h

theorem brandLe_total (a b : BrandEntry) : brandLe a b = true ∨ brandLe b a = true := by
  simp only [brandLe, decide_eq_true_eq]
  omega

theorem brandLe_trans (a b c : BrandEntry) :
    brandLe a b = true → brandLe b c = true → brandLe a c = true := by
  simp only [brandLe, decide_eq_true_eq]
  omega

/-- C9: for a non-empty cleaned dataset (whose rows all carry a truthy
brand, as cleaning guarantees), `brandData` has at most 10 entries, sorted
by non-increasing per-brand row count, each entry's value being that
brand's row count; and `mostCommonBrand` is the name of the first entry,
whose count is maximal over all brands. -/
theorem brandData_sorted_top10 (data : List CleanRow) (cd : ChartsData)
    (hcd : chartsData data = some cd) (hAll : ∀ d ∈ data, d.brand_clean ≠ "") :
    cd.brandData.length ≤ 10 ∧
    cd.brandData.Pairwise (fun a b => b.value ≤ a.value) ∧
    (∀ e ∈ cd.brandData, e.value = countBrandRows data e.name) ∧
    ∃ hd tl, cd.brandData = hd :: tl ∧ cd.kpis.mostCommonBrand = hd.name ∧
      ∀ b, countBrandRows data b ≤ hd.value := by
  unfold chartsData at hcd
  split at hcd
  · exact absurd hcd (by simp)
  · rename_i hlen
    injection hcd with hcd
    subst hcd
    have hnd : ((brandCount data).map Prod.fst).Nodup := by
      unfold brandCount
      exact brandCount_nodup data [] (by simp)
    have hvals : ∀ e ∈ sortByLe brandLe ((brandCount data).map (fun p => ⟨p.1, p.2⟩)),
        e.value = countBrandRows data e.name := by
      intro e he
      rw [mem_sortByLe] at he
      obtain ⟨p, hp, hpe⟩ := List.mem_map.mp he
      subst hpe
      show p.2 = countBrandRows data p.1
      have hlk : lookupN (brandCount data) p.1 = p.2 := mem_lookupN _ _ _ hnd hp
      have hfold := brandCount_fold data [] p.1
      unfold brandCount at hlk
      rw [hfold] at hlk
      simpa [lookupN] using hlk.symm
    have hsorted := pairwise_sortByLe brandLe brandLe_total brandLe_trans
      ((brandCount data).map (fun p => ⟨p.1, p.2⟩))
    refine ⟨?_, ?_, ?_, ?_⟩
    · show ((sortByLe brandLe _).take 10).length ≤ 10
      rw [List.length_take]
      exact min_le_left _ _
    · show (List.Pairwise _ ((sortByLe brandLe _).take 10))
      refine List.Pairwise.imp ?_ (List.Pairwise.sublist (List.take_sublist 10 _) hsorted)
      intro a b h
      simpa [brandLe] using h
    · intro e he
      exact hvals e (List.take_subset 10 _ he)
    · have hdata : data ≠ [] := by
        intro hh; subst hh; simp at hlen
      obtain ⟨d0, ds, rfl⟩ := List.exists_cons_of_ne_nil hdata
      have hb0 : d0.brand_clean ≠ "" := hAll d0 (List.mem_cons_self d0 ds)
      have hbc_ne : brandCount (d0 :: ds) ≠ [] := by
        unfold brandCount
        simp only [List.foldl_cons]
        refine brand_fold_ne_nil ds _ ?_
        rw [if_pos hb0]
        exact bumpCount_ne_nil _ _
      have hent_ne : ((brandCount (d0 :: ds)).map
          (fun p => (⟨p.1, p.2⟩ : BrandEntry))) ≠ [] := by
        intro hh
        exact hbc_ne (List.map_eq_nil_iff.mp hh)
      have hsort_ne := sortByLe_ne_nil brandLe _ hent_ne
      obtain ⟨hd, tl0, hsorteq⟩ := List.exists_cons_of_ne_nil hsort_ne
      refine ⟨hd, tl0.take 9, ?_, ?_, ?_⟩
      · show (sortByLe brandLe _).take 10 = hd :: tl0.take 9
        rw [hsorteq]
        rfl
      · show mostCommonBrandOf (d0 :: ds) = hd.name
        unfold mostCommonBrandOf brandDataOf
        rw [hsorteq]
        rfl
      · intro b
        by_cases hz : countBrandRows (d0 :: ds) b = 0
        · omega
        · have hlk : lookupN (brandCount (d0 :: ds)) b = countBrandRows (d0 :: ds) b := by
            have hfold := brandCount_fold (d0 :: ds) [] b
            unfold brandCount
            simpa [lookupN] using hfold
          have hmem : (b, lookupN (brandCount (d0 :: ds)) b) ∈ brandCount (d0 :: ds) :=
            lookupN_mem _ _ (by rw [hlk]; exact hz)
          have hement : (⟨b, lookupN (brandCount (d0 :: ds)) b⟩ : BrandEntry) ∈
              (brandCount (d0 :: ds)).map (fun p => ⟨p.1, p.2⟩) :=
            List.mem_map.mpr ⟨_, hmem, rfl⟩
          have hsortmem := (mem_sortByLe brandLe _ _).mpr hement
          rw [hsorteq] at hsortmem
          rcases List.mem_cons.mp hsortmem with hh | hh
          · have : hd.value = countBrandRows (d0 :: ds) b := by
              rw [← hh, hlk]
            omega
          · have hpw := List.pairwise_cons.mp (hsorteq ▸ hsorted)
            have := hpw.1 _ hh
            simp only [brandLe, decide_eq_true_eq] at this
            simpa [hlk] using this

/-- Witness for C9 on the one-row fixture dataset. -/
theorem brandData_sorted_top10_witness :
    wCD.brandData.length ≤ 10 ∧
    wCD.brandData.Pairwise (fun a b => b.value ≤ a.value) ∧
    (∀ e ∈ wCD.brandData, e.value = countBrandRows wData e.name) ∧
    ∃ hd tl, wCD.brandData = hd :: tl ∧ wCD.kpis.mostCommonBrand = hd.name ∧
      ∀ b, countBrandRows wData b ≤ hd.value :=
  brandData_sorted_top10 wData wCD (by decide) (by decide)

/-! ## C4: evolution prices are rounded group means -/

theorem totalE_evoAdd (m : List (String × EvoItem)) (key sk : String) (p : ℚ) (k : String) :
    totalE (evoAdd m key sk p) k = totalE m k + (if key = k then p else 0) := by
  induction m with
  | nil =>
    by_cases h : key = k
    · subst h; simp [evoAdd, totalE, lookupE, qAdd_eq]
    · have h' : ¬k = key := fun hh => h hh.symm
      simp [evoAdd, totalE, lookupE, h, h']
  | cons q rest ih =>
    obtain ⟨k', it⟩ := q
    by_cases h1 : k' = key
    · subst h1
      by_cases h2 : k' = k
      · subst h2
        simp [evoAdd, totalE, lookupE, qAdd_eq]
      · simp [evoAdd, totalE, lookupE, h2]
    · by_cases h2 : k' = k
      · subst h2
        have h3 : ¬key = k' := fun hh => h1 hh.symm
        simp [evoAdd, totalE, lookupE, h1, h3]
      · simp only [evoAdd, if_neg h1, totalE, lookupE, if_neg h2]
        have := ih
        simpa [totalE] using this

theorem countE_evoAdd (m : List (String × EvoItem)) (key sk : String) (p : ℚ) (k : String) :
    countE (evoAdd m key sk p) k = countE m k + (if key = k then 1 else 0) := by
  induction m with
  | nil =>
    by_cases h : key = k
    · subst h; simp [evoAdd, countE, lookupE]
    · have h' : ¬k = key := fun hh => h hh.symm
      simp [evoAdd, countE, lookupE, h, h']
  | cons q rest ih =>
    obtain ⟨k', it⟩ := q
    by_cases h1 : k' = key
    · subst h1
      by_cases h2 : k' = k
      · subst h2
        simp [evoAdd, countE, lookupE]
      · simp [evoAdd, countE, lookupE, h2]
    · by_cases h2 : k' = k
      · subst h2
        have h3 : ¬key = k' := fun hh => h1 hh.symm
        simp [evoAdd, countE, lookupE, h1, h3]
      · simp only [evoAdd, if_neg h1, countE, lookupE, if_neg h2]
        have := ih
        simpa [countE] using this

/-- The entry invariant of the evolution accumulator: every stored item
displays its own key and has a positive count. -/
def invE (m : List (String × EvoItem)) : Prop :=
  ∀ q ∈ m, q.2.display = q.1 ∧ 1 ≤ q.2.count

theorem invE_evoAdd (m : List (String × EvoItem)) (key sk : String) (p : ℚ)
    (h : invE m) : invE (evoAdd m key sk p) := by
  induction m with
  | nil =>
    intro q hq
    simp only [evoAdd, List.mem_singleton] at hq
    subst hq
    exact ⟨rfl, le_refl 1⟩
  | cons q0 rest ih =>
    obtain ⟨k', it⟩ := q0
    have hq0 := h (k', it) (List.mem_cons_self _ _)
    have hrest : invE rest := fun q hq => h q (List.mem_cons_of_mem _ hq)
    intro q hq
    simp only [evoAdd] at hq
    by_cases h1 : k' = key
    · rw [if_pos h1] at hq
      rcases List.mem_cons.mp hq with rfl | hq
      · refine ⟨hq0.1, ?_⟩
        show 1 ≤ it.count + 1
        omega
      · exact h q (List.mem_cons_of_mem _ hq)
    · rw [if_neg h1] at hq
      rcases List.mem_cons.mp hq with rfl | hq
      · exact hq0
      · exact ih hrest q hq

theorem mem_keys_evoAdd (m : List (String × EvoItem)) (key sk : String) (p : ℚ) (k : String) :
    k ∈ (evoAdd m key sk p).map Prod.fst ↔ k ∈ m.map Prod.fst ∨ k = key := by
  induction m with
  | nil => simp [evoAdd]
  | cons q rest ih =>
    obtain ⟨k', it⟩ := q
    simp only [evoAdd]
    split_ifs with h
    · subst h
      simp only [List.map_cons, List.mem_cons]
      tauto
    · simp only [List.map_cons, List.mem_cons, ih]
      tauto

theorem nodup_keys_evoAdd (m : List (String × EvoItem)) (key sk : String) (p : ℚ)
    (h : (m.map Prod.fst).Nodup) : ((evoAdd m key sk p).map Prod.fst).Nodup := by
  induction m with
  | nil => simp [evoAdd]
  | cons q rest ih =>
    obtain ⟨k', it⟩ := q
    simp only [List.map_cons, List.nodup_cons] at h
    simp only [evoAdd]
    split_ifs with hk
    · simp only [List.map_cons, List.nodup_cons]
      exact h
    · simp only [List.map_cons, List.nodup_cons]
      refine ⟨?_, ih h.2⟩
      rw [mem_keys_evoAdd]
      rintro (hh | hh)
      · exact h.1 hh
      · exact hk hh

theorem mem_lookupE (m : List (String × EvoItem)) (k : String) (it : EvoItem)
    (hnd : (m.map Prod.fst).Nodup) (hm : (k, it) ∈ m) : lookupE m k = some it := by
  induction m with
  | nil => simp at hm
  | cons q rest ih =>
    obtain ⟨k', it'⟩ := q
    simp only [List.map_cons, List.nodup_cons] at hnd
    rcases List.mem_cons.mp hm with hh | hh
    · injection hh with h1 h2
      subst h1; subst h2
      simp [lookupE]
    · have hk : k' ≠ k := by
        intro hc
        subst hc
        exact hnd.1 (List.mem_map.mpr ⟨(k', it), hh, rfl⟩)
      simp [lookupE, hk, ih hnd.2 hh]

theorem evo_fold_total (l : List CleanRow) :
    ∀ (acc : List (String × EvoItem)) (k : String),
      totalE (l.foldl evoStep acc) k = totalE acc k + groupTotal l k := by
  induction l with
  | nil => intro acc k; simp [groupTotal]
  | cons d ds ih =>
    intro acc k
    cases hev : evoEntry d with
    | none =>
      simp only [List.foldl_cons, groupTotal, evoStep, hev]
      rw [ih]
      ring
    | some t =>
      obtain ⟨k', sk, p⟩ := t
      simp only [List.foldl_cons, groupTotal, evoStep, hev]
      rw [ih, totalE_evoAdd]
      ring

theorem evo_fold_count (l : List CleanRow) :
    ∀ (acc : List (String × EvoItem)) (k : String),
      countE (l.foldl evoStep acc) k = countE acc k + groupCount l k := by
  induction l with
  | nil => intro acc k; simp [groupCount]
  | cons d ds ih =>
    intro acc k
    cases hev : evoEntry d with
    | none =>
      simp only [List.foldl_cons, groupCount, evoStep, hev]
      rw [ih]
      omega
    | some t =>
      obtain ⟨k', sk, p⟩ := t
      simp only [List.foldl_cons, groupCount, evoStep, hev]
      rw [ih, countE_evoAdd]
      omega

theorem evo_fold_inv (l : List CleanRow) :
    ∀ acc : List (String × EvoItem), invE acc → invE (l.foldl evoStep acc) := by
  induction l with
  | nil => intro acc h; simpa using h
  | cons d ds ih =>
    intro acc h
    cases hev : evoEntry d with
    | none =>
      simp only [List.foldl_cons, evoStep, hev]
      exact ih acc h
    | some t =>
      obtain ⟨k', sk, p⟩ := t
      simp only [List.foldl_cons, evoStep, hev]
      exact ih _ (invE_evoAdd acc k' sk p h)

theorem evo_fold_nodup (l : List CleanRow) :
    ∀ acc : List (String × EvoItem), (acc.map Prod.fst).Nodup →
      ((l.foldl evoStep acc).map Prod.fst).Nodup := by
  induction l with
  | nil => intro acc h; simpa using h
  | cons d ds ih =>
    intro acc h
    cases hev : evoEntry d with
    | none =>
      simp only [List.foldl_cons, evoStep, hev]
      exact ih acc h
    | some t =>
      obtain ⟨k', sk, p⟩ := t
      simp only [List.foldl_cons, evoStep, hev]
      exact ih _ (nodup_keys_evoAdd acc k' sk p h)

/-- C4: every entry of `evolutionData` reports, for its quarter group, the
arithmetic mean of the `avg_price_clean` values of the rows assigned to
that group (the group's total divided by its count), rounded to the
nearest integer. -/
theorem evolution_price_is_group_mean (data : List CleanRow) (e : EvoEntry)
    (he : e ∈ evolutionDataOf data) :
    ∃ k, 0 < groupCount data k ∧ e.name = k ∧
      e.price = jsRound (groupTotal data k / (groupCount data k : ℚ)) := by
  unfold evolutionDataOf at he
  obtain ⟨it, hit, hee⟩ := List.mem_map.mp he
  rw [mem_sortByLe] at hit
  obtain ⟨q, hmem, hsnd⟩ := List.mem_map.mp hit
  obtain ⟨k, it'⟩ := q
  cases hsnd
  have hnd : ((priceEvolution data).map Prod.fst).Nodup := by
    unfold priceEvolution
    exact evo_fold_nodup data [] (by simp)
  have hinv : invE (priceEvolution data) := by
    unfold priceEvolution
    exact evo_fold_inv data [] (by intro q hq; simp at hq)
  have hlk : lookupE (priceEvolution data) k = some it' := mem_lookupE _ _ _ hnd hmem
  have hcnt : it'.count = groupCount data k := by
    have h1 := evo_fold_count data [] k
    unfold priceEvolution at hlk
    rw [show countE (data.foldl evoStep []) k = it'.count by
      unfold countE; rw [hlk]] at h1
    simpa [countE, lookupE] using h1
  have htot : it'.total = groupTotal data k := by
    have h1 := evo_fold_total data [] k
    unfold priceEvolution at hlk
    rw [show totalE (data.foldl evoStep []) k = it'.total by
      unfold totalE; rw [hlk]] at h1
    simpa [totalE, lookupE] using h1
  have hdisp := hinv (k, it') hmem
  refine ⟨k, ?_, ?_, ?_⟩
  · have h2 : 1 ≤ it'.count := hdisp.2
    omega
  · rw [← hee]
    exact hdisp.1
  · rw [← hee]
    show jsRound (qDiv it'.total (it'.count : ℚ)) = _
    rw [qDiv_eq, htot, hcnt]

/-- Witness for C4 on the one-row fixture dataset. -/
theorem evolution_price_is_group_mean_witness :
    ∃ k, 0 < groupCount wData k ∧ (⟨"Q1/2021", 10⟩ : EvoEntry).name = k ∧
      (⟨"Q1/2021", 10⟩ : EvoEntry).price =
        jsRound (groupTotal wData k / (groupCount wData k : ℚ)) :=
  evolution_price_is_group_mean wData ⟨"Q1/2021", 10⟩ (by decide)

/-! ## Tokenizer lemmas (for C1 and C7) -/

theorem strData_append (a b : String) : (a ++ b).data = a.data ++ b.data := by
  cases a; cases b; rfl

theorem jsSet_ne_nil (r : RawRow) (k v : String) : jsSet r k v ≠ [] := by
  cases r with
  | nil => simp [jsSet]
  | cons p rest =>
    obtain ⟨k', v'⟩ := p
    simp only [jsSet]
    split_ifs <;> simp

theorem jsSet_fresh (r : RawRow) (k v : String) (h : ∀ p ∈ r, p.1 ≠ k) :
    jsSet r k v = r ++ [(k, v)] := by
  induction r with
  | nil => rfl
  | cons p rest ih =>
    obtain ⟨k', v'⟩ := p
    have hk : k' ≠ k := h (k', v') (List.mem_cons_self _ _)
    simp only [jsSet, if_neg hk, List.cons_append]
    rw [ih (fun p hp => h p (List.mem_cons_of_mem _ hp))]

theorem nth_of_drop_nil : ∀ (l : List α) (i : ℕ), l.drop i = [] → nth l i = none := by
  intro l
  induction l with
  | nil => intro i _; cases i <;> rfl
  | cons x xs ih =>
    intro i h
    cases i with
    | zero => simp at h
    | succ n => exact ih n (by simpa using h)

theorem drop_of_nth_some : ∀ (l : List α) (i : ℕ) (a : α),
    nth l i = some a → l.drop i = a :: l.drop (i + 1) := by
  intro l
  induction l with
  | nil => intro i a h; cases i <;> simp [nth] at h
  | cons x xs ih =>
    intro i a h
    cases i with
    | zero =>
      simp only [nth, Option.some.injEq] at h
      subst h
      simp
    | succ n =>
      simp only [nth] at h
      simpa using ih n a h

theorem drop_of_nth_none : ∀ (l : List α) (i : ℕ), nth l i = none → l.drop i = [] := by
  intro l
  induction l with
  | nil => intro i _; simp
  | cons x xs ih =>
    intro i h
    cases i with
    | zero => simp [nth] at h
    | succ n =>
      simp only [nth] at h
      simpa using ih n h

theorem stripOuterQuotes_of_no_quote (s : String) (h : ∀ c ∈ s.data, c ≠ '"') :
    stripOuterQuotes s = s := by
  have hlead : ∀ cs : List Char, (∀ c ∈ cs, c ≠ '"') → dropLeadQuote cs = cs := by
    intro cs hcs
    cases cs with
    | nil => rfl
    | cons c r => exact if_neg (hcs c (List.mem_cons_self _ _))
  unfold stripOuterQuotes
  rw [hlead s.data h]
  rw [hlead s.data.reverse (fun c hc => h c (List.mem_reverse.mp hc))]
  rw [List.reverse_reverse]

theorem foldl_tokStep_quoted (hs : List String) :
    ∀ cs : List Char, (∀ c ∈ cs, c ≠ '"') →
      ∀ (acc : List Char) (i : ℕ) (r : RawRow),
        List.foldl (tokStep hs) ⟨acc, true, i, r⟩ cs = ⟨acc ++ cs, true, i, r⟩ := by
  intro cs
  induction cs with
  | nil => intro _ acc i r; simp
  | cons c cs' ih =>
    intro h acc i r
    have hc : ¬c = '"' := h c (List.mem_cons_self _ _)
    have hstep : tokStep hs ⟨acc, true, i, r⟩ c = ⟨acc ++ [c], true, i, r⟩ := by
      simp [tokStep, hc]
    rw [List.foldl_cons, hstep, ih (fun x hx => h x (List.mem_cons_of_mem _ hx))]
    simp

theorem foldl_tokStep_plain (hs : List String) :
    ∀ cs : List Char, (∀ c ∈ cs, c ≠ '"' ∧ c ≠ ',') →
      ∀ (acc : List Char) (i : ℕ) (r : RawRow),
        List.foldl (tokStep hs) ⟨acc, false, i, r⟩ cs = ⟨acc ++ cs, false, i, r⟩ := by
  intro cs
  induction cs with
  | nil => intro _ acc i r; simp
  | cons c cs' ih =>
    intro h acc i r
    have hc1 : ¬c = '"' := (h c (List.mem_cons_self _ _)).1
    have hc2 : ¬c = ',' := (h c (List.mem_cons_self _ _)).2
    have hstep : tokStep hs ⟨acc, false, i, r⟩ c = ⟨acc ++ [c], false, i, r⟩ := by
      simp [tokStep, hc1, hc2]
    rw [List.foldl_cons, hstep, ih (fun x hx => h x (List.mem_cons_of_mem _ hx))]
    simp

theorem foldl_tokStep_invariant (hs : List String) (hne : hs ≠ []) :
    ∀ (cs : List Char) (st : TokSt), st.colIndex = 0 ∨ st.row ≠ [] →
      (List.foldl (tokStep hs) st cs).colIndex = 0 ∨
        (List.foldl (tokStep hs) st cs).row ≠ [] := by
  intro cs
  induction cs with
  | nil => intro st h; simpa using h
  | cons c cs' ih =>
    intro st h
    rw [List.foldl_cons]
    refine ih _ ?_
    unfold tokStep
    split_ifs with h1 h2
    · simpa using h
    · right
      cases hnth : nth hs st.colIndex with
      | some hd => simpa [hnth] using jsSet_ne_nil st.row hd (finishVal st.currentVal)
      | none =>
        rcases h with h | h
        · cases hs with
          | nil => exact absurd rfl hne
          | cons a as => rw [h] at hnth; simp [nth] at hnth
        · simpa [hnth] using h
    · simpa using h

theorem parseLine_ne_nil (hs : List String) (hne : hs ≠ []) (line : String) :
    parseLine hs line ≠ [] := by
  unfold parseLine finishLine
  have hinv := foldl_tokStep_invariant hs hne line.data ⟨[], false, 0, []⟩ (Or.inl rfl)
  cases hnth : nth hs (List.foldl (tokStep hs) ⟨[], false, 0, []⟩ line.data).colIndex with
  | some hd =>
    simp only [hnth]
    exact jsSet_ne_nil _ _ _
  | none =>
    simp only [hnth]
    rcases hinv with h | h
    · cases hs with
      | nil => exact absurd rfl hne
      | cons a as => rw [h] at hnth; simp [nth] at hnth
    · exact h

theorem splitGo_ne_nil (c0 : Char) (rest : List Char) :
    ∀ (fuel : ℕ) (l acc : List Char), splitGo c0 rest fuel l acc ≠ [] := by
  intro fuel
  induction fuel with
  | zero => intro l acc; simp [splitGo]
  | succ f ih =>
    intro l acc
    cases l with
    | nil => simp [splitGo]
    | cons d ds =>
      simp only [splitGo]
      split_ifs with h
      · simp
      · exact ih ds (d :: acc)

theorem headersOf_ne_nil (h0 : String) : (splitStr "," h0).map jsTrim ≠ [] := by
  intro hh
  rw [List.map_eq_nil_iff] at hh
  have hh2 : ((splitGo ',' [] (h0.data.length + 1) h0.data []).map String.mk) = [] := hh
  rw [List.map_eq_nil_iff] at hh2
  exact splitGo_ne_nil ',' [] _ _ _ hh2

theorem filterMap_parseLine (hs : List String) (hne : hs ≠ []) (lines : List String) :
    lines.filterMap (fun line =>
      if jsTrim line = "" then none
      else
        let row := parseLine hs line
        if row.length > 0 then some row else none)
    = (lines.filter (fun l => jsTrim l ≠ "")).map (parseLine hs) := by
  induction lines with
  | nil => rfl
  | cons l ls ih =>
    simp only [List.filterMap_cons, List.filter_cons]
    by_cases hl : jsTrim l = ""
    · simp [hl, ih]
    · have hrow : (parseLine hs l).length > 0 :=
        List.length_pos.mpr (parseLine_ne_nil hs hne l)
      simp [hl, hrow, ih]

/-! ## C1: commas inside quoted fields -/

/-- C1: a comma between an opening and a closing double quote is kept as
part of the field value rather than splitting it, and the outer double
quotes do not appear in the stored value: a line consisting of the single
quoted field `"u,v"` parses to one field holding `u,v` (trimmed), bound to
the first header. -/
theorem parseLine_quoted_comma (h : String) (hs : List String) (u v : String)
    (hu : ∀ c ∈ u.data, c ≠ '"') (hv : ∀ c ∈ v.data, c ≠ '"') :
    parseLine (h :: hs) ("\"" ++ u ++ "," ++ v ++ "\"") = [(h, jsTrim (u ++ "," ++ v))] := by
  unfold parseLine
  have hdata : ("\"" ++ u ++ "," ++ v ++ "\"").data
      = '"' :: (u.data ++ ',' :: v.data ++ ['"']) := by
    rw [strData_append, strData_append, strData_append, strData_append]
    simp
  rw [hdata]
  rw [List.foldl_cons]
  have hstep1 : tokStep (h :: hs) ⟨[], false, 0, []⟩ '"' = ⟨[], true, 0, []⟩ := by
    simp [tokStep]
  rw [hstep1]
  have hmid : ∀ c ∈ u.data ++ ',' :: v.data, c ≠ '"' := by
    intro c hc
    rcases List.mem_append.mp hc with hc | hc
    · exact hu c hc
    · rcases List.mem_cons.mp hc with rfl | hc
      · decide
      · exact hv c hc
  have hsplit : u.data ++ ',' :: v.data ++ ['"'] = (u.data ++ ',' :: v.data) ++ ['"'] := by
    simp
  rw [hsplit, List.foldl_append]
  rw [foldl_tokStep_quoted (h :: hs) _ hmid [] 0 []]
  have hstep2 : tokStep (h :: hs) ⟨[] ++ (u.data ++ ',' :: v.data), true, 0, []⟩ '"'
      = ⟨u.data ++ ',' :: v.data, false, 0, []⟩ := by
    simp [tokStep]
  rw [show List.foldl (tokStep (h :: hs)) ⟨[] ++ (u.data ++ ',' :: v.data), true, 0, []⟩ ['"']
      = tokStep (h :: hs) ⟨[] ++ (u.data ++ ',' :: v.data), true, 0, []⟩ '"' from rfl]
  rw [hstep2]
  unfold finishLine
  show jsSet [] h (finishVal (u.data ++ ',' :: v.data)) = _
  have hval : finishVal (u.data ++ ',' :: v.data) = jsTrim (u ++ "," ++ v) := by
    unfold finishVal
    have hcomma : (",".data : List Char) = [','] := rfl
    have hdat : (u ++ "," ++ v).data = u.data ++ ',' :: v.data := by
      rw [strData_append, strData_append, hcomma]
      simp
    have hmk : String.mk (u.data ++ ',' :: v.data) = u ++ "," ++ v := by
      rw [← hdat]
    rw [hmk, stripOuterQuotes_of_no_quote _ ?_]
    intro c hc
    rw [hdat] at hc
    exact hmid c hc
  rw [hval]
  rfl

/-- Witness for C1: the comma inside `"hello, world"` is preserved and the
quotes are stripped. -/
theorem parseLine_quoted_comma_witness :
    parseLine ["greeting"] ("\"" ++ "hello" ++ "," ++ " world" ++ "\"")
      = [("greeting", jsTrim ("hello" ++ "," ++ " world"))] :=
  parseLine_quoted_comma "greeting" [] "hello" " world" (by decide) (by decide)

/-! ## C7: header row and row objects -/

theorem runFields (hs : List String) (hnd : hs.Nodup) :
    ∀ fields : List String, fields ≠ [] →
      (∀ f ∈ fields, ∀ c ∈ f.data, c ≠ '"' ∧ c ≠ ',') →
      ∀ (i : ℕ) (r : RawRow), (∀ p ∈ r, p.1 ∉ hs.drop i) →
      finishLine hs (List.foldl (tokStep hs) ⟨[], false, i, r⟩ (joinCommas fields).data)
        = r ++ (hs.drop i).zip (fields.map (fun f => jsTrim (stripOuterQuotes f))) := by
  intro fields
  induction fields with
  | nil => intro h; exact absurd rfl h
  | cons f rest ih =>
    intro _ hq i r hr
    have hf : ∀ c ∈ f.data, c ≠ '"' ∧ c ≠ ',' := hq f (List.mem_cons_self _ _)
    cases rest with
    | nil =>
      show finishLine hs (List.foldl (tokStep hs) ⟨[], false, i, r⟩ f.data) = _
      rw [foldl_tokStep_plain hs f.data hf [] i r]
      unfold finishLine
      cases hnth : nth hs i with
      | none =>
        have hdrop := drop_of_nth_none hs i hnth
        simp [hdrop]
      | some h0 =>
        have hdrop := drop_of_nth_some hs i h0 hnth
        have hfresh : ∀ p ∈ r, p.1 ≠ h0 := by
          intro p hp hcon
          exact hr p hp (by rw [hdrop, hcon]; exact List.mem_cons_self _ _)
        simp only [hnth]
        rw [hdrop]
        show jsSet r h0 (jsTrim (stripOuterQuotes f)) = _
        rw [jsSet_fresh r h0 _ hfresh]
        simp [List.zip_cons_cons]
    | cons f2 rest2 =>
      have hq' : ∀ g ∈ f2 :: rest2, ∀ c ∈ g.data, c ≠ '"' ∧ c ≠ ',' :=
        fun g hg => hq g (List.mem_cons_of_mem _ hg)
      have hcomma : (",".data : List Char) = [','] := rfl
      have hline : (joinCommas (f :: f2 :: rest2)).data
          = f.data ++ (',' :: (joinCommas (f2 :: rest2)).data) := by
        show (f ++ "," ++ joinCommas (f2 :: rest2)).data = _
        rw [strData_append, strData_append, hcomma]
        simp
      rw [hline, List.foldl_append]
      rw [foldl_tokStep_plain hs f.data hf [] i r]
      rw [List.foldl_cons]
      have hq1 : ¬(',' : Char) = '"' := by decide
      have hstep : tokStep hs ⟨[] ++ f.data, false, i, r⟩ ','
          = ⟨[], false, i + 1,
              match nth hs i with
              | some h => jsSet r h (finishVal ([] ++ f.data))
              | none => r⟩ := by
        simp [tokStep, hq1]
      rw [hstep]
      cases hnth : nth hs i with
      | none =>
        have hdrop := drop_of_nth_none hs i hnth
        have hdrop1 : hs.drop (i + 1) = [] := by
          have h2 := List.drop_drop 1 i hs
          rw [hdrop] at h2
          simpa using h2.symm
        simp only [hnth]
        rw [ih (by simp) hq' (i + 1) r (by rw [hdrop1]; simp)]
        rw [hdrop, hdrop1]
        simp
      | some h0 =>
        have hdrop := drop_of_nth_some hs i h0 hnth
        have hfresh : ∀ p ∈ r, p.1 ≠ h0 := by
          intro p hp hcon
          exact hr p hp (by rw [hdrop, hcon]; exact List.mem_cons_self _ _)
        have hnodrop : h0 ∉ hs.drop (i + 1) := by
          have hnd2 : (hs.drop i).Nodup := List.Nodup.sublist (List.drop_sublist i hs) hnd
          rw [hdrop] at hnd2
          exact (List.nodup_cons.mp hnd2).1
        simp only [hnth]
        rw [jsSet_fresh r h0 _ hfresh]
        have hr' : ∀ p ∈ r ++ [(h0, finishVal ([] ++ f.data))], p.1 ∉ hs.drop (i + 1) := by
          intro p hp
          rcases List.mem_append.mp hp with hp | hp
          · intro hcon
            exact hr p hp (by rw [hdrop]; exact List.mem_cons_of_mem _ hcon)
          · rcases List.mem_singleton.mp hp with rfl
            exact hnodrop
        rw [ih (by simp) hq' (i + 1) _ hr']
        rw [hdrop]
        show (r ++ [(h0, jsTrim (stripOuterQuotes f))]) ++ _ = _
        simp [List.zip_cons_cons]

/-- C7: the CSV tokenizer treats the first line as the header row; every
non-blank later line yields one row; and on a line whose comma-separated
fields are quote-free, the row binds the trimmed header names, in order,
to the corresponding field values (trimmed), dropping any field beyond the
headers. -/
theorem parseCSV_header_rows :
    (∀ (text h0 : String) (rest : List String),
      splitLines text = h0 :: rest →
      parseCSV text =
        (rest.filter (fun l => jsTrim l ≠ "")).map
          (parseLine ((splitStr "," h0).map jsTrim))) ∧
    (∀ (hs fields : List String), hs ≠ [] → hs.Nodup → fields ≠ [] →
      (∀ f ∈ fields, ∀ c ∈ f.data, c ≠ '"' ∧ c ≠ ',') →
      parseLine hs (joinCommas fields) =
        hs.zip (fields.map (fun f => jsTrim (stripOuterQuotes f)))) := by
  constructor
  · intro text h0 rest hsplit
    unfold parseCSV
    rw [hsplit]
    exact filterMap_parseLine _ (headersOf_ne_nil h0) rest
  · intro hs fields hne hnd hf hq
    unfold parseLine
    have := runFields hs hnd fields hf hq 0 [] (by simp)
    simpa using this

/-- Witness for C7 on a concrete two-line CSV with an extra field. -/
theorem parseCSV_header_rows_witness :
    parseCSV "a, b\n1,2,3\n\n4" =
      (["1,2,3", "", "4"].filter (fun l => jsTrim l ≠ "")).map
        (parseLine ((splitStr "," "a, b").map jsTrim)) ∧
    parseLine ["a", "b"] (joinCommas ["1", "2", "3"]) =
      (["a", "b"] : List String).zip
        ((["1", "2", "3"] : List String).map (fun f => jsTrim (stripOuterQuotes f))) :=
  ⟨parseCSV_header_rows.1 "a, b\n1,2,3\n\n4" "a, b" ["1,2,3", "", "4"] (by decide),
   parseCSV_header_rows.2 ["a", "b"] ["1", "2", "3"] (by decide) (by decide) (by decide)
     (by decide)⟩

end DataViz
